import Mathlib

/-!
Shallow embedding of the zero-width-character steganography engine
(`src/zw_core/chars.rs`, `src/zw_core/engine.rs`, and the cover-splicing
branch of `src/mcp/tools.rs`).

Modelling conventions:
* A Rust `char` / text is modelled as a `Nat` code point / `List Nat`
  of code points (Rust iterates `chars()`, i.e. scalar values).
* `f64` arithmetic in the scorer is modelled exactly over `ℚ`; the ratio
  comparison `ratio > 0.5` of `is_printable` is the exact rational
  comparison `2 * printable > len`.
* Fallible parsing (`u32::from_str_radix`, `char::from_u32`) is modelled
  by the explicit numeric side conditions under which it succeeds.
* The one panicking code path (`slice::chunks(0)` inside
  `decode_direct_binary`) is modelled by an outer `Option` layer whose
  `none` stands for the panic.
-/

-- Batteries seals the `Rat` arithmetic it proves its `Rat` lemmas about;
-- re-open it so that concrete scores evaluate under `decide`.
set_option allowUnsafeReducibility true
attribute [semireducible] Rat.add Rat.mul Rat.sub Rat.div Rat.inv Rat.blt

-- ============================================================
-- chars.rs: classification registry
-- ============================================================

def UNICODE_TAGS_START : Nat := 0xE0000

def UNICODE_TAGS_END : Nat := 0xE007F

/-- `is_unicode_tag` from chars.rs. -/
def is_unicode_tag (cp : Nat) : Bool :=
  UNICODE_TAGS_START ≤ cp && cp ≤ UNICODE_TAGS_END

/-- `is_zero_width` from chars.rs: the fixed inclusive code-point ranges,
or the Unicode-Tag range. -/
def is_zero_width (cp : Nat) : Bool :=
  (0x200B ≤ cp && cp ≤ 0x200F) ||
  (0x202A ≤ cp && cp ≤ 0x202E) ||
  (0x2060 ≤ cp && cp ≤ 0x2064) ||
  (0x2066 ≤ cp && cp ≤ 0x2069) ||
  (cp == 0xFEFF) ||
  (cp == 0x180E) ||
  (cp == 0x00AD) ||
  (cp == 0x034F) ||
  (cp == 0x061C) ||
  (0x115F ≤ cp && cp ≤ 0x1160) ||
  (0x17B4 ≤ cp && cp ≤ 0x17B5) ||
  (cp == 0x3164) ||
  (cp == 0xFFA0) ||
  (0xFE00 ≤ cp && cp ≤ 0xFE0F) ||
  (0x206A ≤ cp && cp ≤ 0x206F) ||
  (0x2028 ≤ cp && cp ≤ 0x2029) ||
  is_unicode_tag cp

/-- One entry of the static catalog (`ZeroWidthChar` in chars.rs);
the display-only `name`/`category` strings are elided. -/
def all_zero_width_chars : List Nat :=
  [0x200B, 0x200C, 0x200D, 0xFEFF, 0x2060,
   0x200E, 0x200F, 0x202A, 0x202B, 0x202C, 0x202D, 0x202E,
   0x2066, 0x2067, 0x2068, 0x2069,
   0x2061, 0x2062, 0x2063, 0x2064,
   0x180E,
   0x00AD, 0x034F, 0x061C, 0x115F, 0x1160, 0x17B4, 0x17B5, 0x3164, 0xFFA0,
   0xFE00, 0xFE01, 0xFE02, 0xFE03, 0xFE04, 0xFE05, 0xFE06, 0xFE07,
   0xFE08, 0xFE09, 0xFE0A, 0xFE0B, 0xFE0C, 0xFE0D, 0xFE0E, 0xFE0F,
   0x206A, 0x206B, 0x206C, 0x206D, 0x206E, 0x206F,
   0x2028, 0x2029]

/-- Rust `char::is_control`: the Unicode Cc category. -/
def isControlCp (cp : Nat) : Bool :=
  cp ≤ 0x1F || (0x7F ≤ cp && cp ≤ 0x9F)

/-- Rust `char::is_ascii_alphanumeric`. -/
def isAsciiAlnum (cp : Nat) : Bool :=
  (48 ≤ cp && cp ≤ 57) || (65 ≤ cp && cp ≤ 90) || (97 ≤ cp && cp ≤ 122)

/-- A valid Unicode scalar value: the domain where `char::from_u32`
returns `Some`. -/
def isScalar (cp : Nat) : Bool :=
  cp < 0xD800 || (0xE000 ≤ cp && cp ≤ 0x10FFFF)

-- ============================================================
-- engine.rs: analysis
-- ============================================================

structure Analysis where
  total_chars : Nat
  visible_chars : Nat
  zero_width_count : Nat
  unique_zw_chars : Nat
  /-- codepoint → count, in ascending codepoint order (BTreeMap iteration
  order). -/
  distribution : List (Nat × Nat)
  has_unicode_tags : Bool
deriving DecidableEq, Repr

/-- Insert into an ascending list (used to model BTreeMap key order). -/
def insertAsc (x : Nat) : List Nat → List Nat
  | [] => [x]
  | y :: ys => if x ≤ y then x :: y :: ys else y :: insertAsc x ys

def sortAsc (l : List Nat) : List Nat := l.foldr insertAsc []

/-- The distribution built by `analyze`: each distinct zero-width code
point of the text mapped to its occurrence count, keys ascending. -/
def distributionOf (t : List Nat) : List (Nat × Nat) :=
  let zw := t.filter is_zero_width
  (sortAsc zw.dedup).map (fun k => (k, zw.count k))

/-- `analyze` from engine.rs.  As in the source, `zero_width_count` is the
sum of the distribution's values and `unique_zw_chars` its size. -/
def analyze (t : List Nat) : Analysis :=
  let distribution := distributionOf t
  { total_chars := t.length
    visible_chars := (t.filter (fun c => !is_zero_width c && !isControlCp c)).length
    zero_width_count := (distribution.map Prod.snd).sum
    unique_zw_chars := distribution.length
    distribution := distribution
    has_unicode_tags := t.any (fun c => is_zero_width c && is_unicode_tag c) }

-- ============================================================
-- engine.rs: extraction
-- ============================================================

/-- `extract_all` from engine.rs. -/
def extract_all (t : List Nat) : List Nat := t.filter is_zero_width

/-- Loop body of `extract_segments`: `cur` is the run being accumulated. -/
def segGo : List Nat → List Nat → List (List Nat)
  | cur, [] => if cur = [] then [] else [cur]
  | cur, c :: rest =>
    if is_zero_width c then segGo (cur ++ [c]) rest
    else if cur = [] then segGo [] rest
    else cur :: segGo [] rest

/-- `extract_segments` from engine.rs. -/
def extract_segments (t : List Nat) : List (List Nat) := segGo [] t

-- ============================================================
-- engine.rs: printability gate and scorer
-- ============================================================

/-- `is_printable` from engine.rs.  The source compares the `f64` ratio
`printable / count > 0.5`; over the exact counts this is
`2 * printable > count`. -/
def is_printable (t : List Nat) : Bool :=
  if t = [] then false
  else
    let printable := (t.filter (fun c => !isControlCp c || c == 10 || c == 13 || c == 9)).length
    t.length < 2 * printable

/-- The six CTF flag markers scanned for by `score`, as code-point lists
("flag", "ctf", "FLAG", "CTF", "key", "KEY", each followed by an opening
brace). -/
def flagMarkers : List (List Nat) :=
  [[102, 108, 97, 103, 123],
   [99, 116, 102, 123],
   [70, 76, 65, 71, 123],
   [67, 84, 70, 123],
   [107, 101, 121, 123],
   [75, 69, 89, 123]]

/-- Rust `str::contains(pattern)` on code-point lists. -/
def hasSubstring (pat l : List Nat) : Bool :=
  (List.range (l.length + 1)).any (fun i => pat.isPrefixOf (l.drop i))

/-- Longest run of consecutive control characters other than LF/CR/TAB
(the `max_unp` loop of `score`). -/
def maxUnprintableRun (t : List Nat) : Nat :=
  (t.foldl
    (fun p c =>
      if isControlCp c && c ≠ 10 && c ≠ 13 && c ≠ 9 then
        (p.1 + 1, max p.2 (p.1 + 1))
      else (0, p.2))
    ((0, 0) : Nat × Nat)).2

/-- `score` from engine.rs, with `f64` arithmetic modelled exactly
over `ℚ`. -/
def score (t : List Nat) : ℚ :=
  if t = [] then 0
  else
    let len := t.length
    let printable := (t.filter (fun c => !isControlCp c)).length
    let alnum := (t.filter isAsciiAlnum).length
    let s1 : ℚ := (printable : ℚ) / (len : ℚ) * 30 + (alnum : ℚ) / (len : ℚ) * 30
    let s2 : ℚ := s1 + (if 3 ≤ len then ((min len 20 : Nat) : ℚ) else 0)
    let s3 : ℚ := s2 + (if t.contains 32 then 10 else 0)
    let s4 : ℚ := s3 + (if flagMarkers.any (fun f => hasSubstring f t) then 50 else 0)
    max (s4 - 5 * (maxUnprintableRun t : ℚ)) 0

-- ============================================================
-- engine.rs: decode strategies
-- ============================================================

structure DecodeResult where
  /-- Display label; the source's parameter interpolation into the label
  is elided (labels are display-only, no claim inspects them). -/
  method : String
  decoded : List Nat
  score : ℚ
deriving DecidableEq, Repr

/-- Shared tail of every single-result strategy: reject empty or
non-printable output, otherwise build the scored result. -/
def mkResult (m : String) (res : List Nat) : Option DecodeResult :=
  if res = [] || !is_printable res then none
  else some { method := m, decoded := res, score := score res }

/-- Loop body of `decode_unicode_tags`: the characters one input code
point contributes (`from_u32 ascii` always succeeds for `ascii < 128`). -/
def tagStep (cp : Nat) : List Nat :=
  if UNICODE_TAGS_START ≤ cp ∧ cp ≤ UNICODE_TAGS_END then
    let ascii := cp - UNICODE_TAGS_START
    if 0 < ascii ∧ ascii < 128 then [ascii] else []
  else []

/-- `decode_unicode_tags` from engine.rs. -/
def decode_unicode_tags (t : List Nat) : Option DecodeResult :=
  mkResult "Unicode Tags" (t.flatMap tagStep)

/-- Rust `str::split(sep)` on code-point lists (keeps empty pieces). -/
def splitSep (sep : Nat) : List Nat → List (List Nat)
  | [] => [[]]
  | c :: rest =>
    if c = sep then [] :: splitSep sep rest
    else
      match splitSep sep rest with
      | p :: ps => (c :: p) :: ps
      | [] => [[c]]

/-- Big-endian binary value of a bit list (`u32::from_str_radix(_, 2)`
modulo its error cases, handled at each call site). -/
def bitsToNat (bits : List Nat) : Nat :=
  bits.foldl (fun acc b => 2 * acc + b) 0

/-- The big-endian width-`bits` bit list of `ch` (the bit stream the
binary encoders emit for one character). -/
def bitsOf (bits ch : Nat) : List Nat :=
  (List.range bits).reverse.map (fun i => (ch >>> i) % 2)

/-- `decode_steganographr` from engine.rs: WJ=U+2060 separator,
ZWSP=U+200B zero, ZWNJ=U+200C one. -/
def decode_steganographr (t : List Nat) : Option DecodeResult :=
  let zw_only := t.filter (fun c => c == 0x2060 || c == 0x200B || c == 0x200C)
  if zw_only = [] then none
  else
    let parts := splitSep 0x2060 zw_only
    let res := parts.flatMap (fun part =>
      if part = [] then []
      else
        let binary := part.filterMap (fun c =>
          if c = 0x200B then some 0 else if c = 0x200C then some 1 else none)
        if binary = [] then []
        else
          let v := bitsToNat binary
          -- from_str_radix overflows (Err, skipped) at 2^32; from_u32
          -- rejects non-scalar values (skipped); 0 is skipped.
          if v < 4294967296 then
            if 0 < v then (if isScalar v then [v] else []) else []
          else [])
    mkResult "Steganographr" res

/-- The bit stream a pair of candidate symbols induces on a zero-width
sequence (the `binary` string of `decode_direct_binary` /
`decode_segmented_binary`). -/
def pairBits (zero_char one_char : Nat) (seq : List Nat) : List Nat :=
  seq.filterMap (fun c =>
    if c = zero_char then some 0 else if c = one_char then some 1 else none)

/-- Fuel-driven chunking loop; with `fuel ≥ l.length` and a positive
chunk size it never runs out of fuel. -/
def chunksGo (n : Nat) : Nat → List α → List (List α)
  | _, [] => []
  | 0, _ :: _ => []
  | fuel + 1, a :: l => (a :: l).take n :: chunksGo n fuel ((a :: l).drop n)

/-- Successive chunks of size `n` (Rust `slice::chunks` for `n > 0`):
all full except possibly the last. -/
def chunksOf (n : Nat) (l : List α) : List (List α) := chunksGo n l.length l

/-- Rust `slice::chunks`, including its panic on chunk size 0
(modelled as `none`). -/
def chunksRs (n : Nat) (l : List α) : Option (List (List α)) :=
  if n = 0 then none else some (chunksOf n l)

/-- `decode_direct_binary` from engine.rs.  The outer `Option` models
the `chunks(0)` panic: `none` = panic, `some r` = normal return `r`. -/
def decode_direct_binary (zw_seq : List Nat) (zero_char one_char bits : Nat) :
    Option (Option DecodeResult) :=
  let binary := pairBits zero_char one_char zw_seq
  if binary.length < bits then some none
  else
    match chunksRs bits binary with
    | none => none
    | some cs =>
      let res := cs.flatMap (fun chunk =>
        if chunk.length < bits then []  -- trailing short chunk: loop breaks
        else
          let v := bitsToNat chunk
          -- from_str_radix Err (≥ 2^32) is skipped; keep 0 < v < 128.
          if v < 4294967296 then (if 0 < v ∧ v < 128 then [v] else []) else [])
      some (mkResult "DirectBinary" res)

-- --- N-ary mapping (decode_nary) ---

def u32Max : Nat := 4294967295

/-- `u32::saturating_add`. -/
def satAdd (a b : Nat) : Nat := min (a + b) u32Max

/-- `u32::saturating_mul`. -/
def satMul (a b : Nat) : Nat := min (a * b) u32Max

/-- The digit a symbol maps to: its index in the charset.  The source
builds a `HashMap` by inserting `(c, i)` in index order, so a duplicated
symbol gets its last index. -/
def charToDigit (charset : List Nat) (c : Nat) : Option Nat :=
  ((charset.enum.filter (fun p => p.2 = c)).getLast?).map Prod.fst

/-- `chars_per_unicode = ceil(16 / log2(base)) as usize`.  For `base ≥ 2`
this equals the least `k` with `base ^ k ≥ 2^16`; `base = 1` gives
`+inf as usize = usize::MAX`; `base = 0` gives `(-0.0) as usize = 0`. -/
def charsPerUnicode (base : Nat) : Nat :=
  if base = 0 then 0
  else if base = 1 then 18446744073709551615
  else
    match (List.range 17).find? (fun k => 65536 ≤ base ^ k) with
    | some k => k
    | none => 0

/-- The candidate group sizes tried by `decode_nary`. -/
def naryTrySizes (cpu : Nat) : List Nat :=
  let s := [cpu] ++ (if 1 < cpu then [cpu - 1] else []) ++ [cpu + 1]
  s ++ ([4, 5, 6, 7, 8].filter (fun e => !s.contains e))

/-- Saturating big-endian base accumulation of one digit group
(`value = value.saturating_mul(base).saturating_add(d)`, with the
source's `as u32` casts). -/
def naryChunkVal (base : Nat) (chunk : List Nat) : Nat :=
  chunk.foldl (fun v d => satAdd (satMul v (base % 4294967296)) (d % 4294967296)) 0

/-- The per-group-size loop body of `decode_nary`: decode full chunks in
order; value 0 is skipped, a non-scalar or too-large value aborts the
candidate (`ok = false`, modelled as `none`); a trailing short chunk
stops the loop (`break`). -/
def naryGroups (base group_size : Nat) : List (List Nat) → Option (List Nat)
  | [] => some []
  | chunk :: rest =>
    if chunk.length < group_size then some []
    else
      let v := naryChunkVal base chunk
      if 0 < v ∧ v < 0x110000 then
        if isScalar v then (naryGroups base group_size rest).map (fun tl => v :: tl)
        else none
      else if v = 0 then naryGroups base group_size rest
      else none

/-- `decode_nary` from engine.rs. -/
def decode_nary (zw_seq : List Nat) (charset : List Nat) : List DecodeResult :=
  let base := charset.length
  if base < 2 then []
  else
    let digits := zw_seq.filterMap (charToDigit charset)
    if digits = [] then []
    else
      let cpu := charsPerUnicode base
      (naryTrySizes cpu).flatMap (fun group_size =>
        if group_size < 1 ∨ 16 < group_size then []
        else
          match naryGroups base group_size (chunksOf group_size digits) with
          | none => []
          | some text =>
            if text ≠ [] ∧ is_printable text = true ∧ 15 < score text then
              [{ method := "Nary", decoded := text, score := score text }]
            else [])

-- --- Segmented binary (decode_segmented_binary) ---

/-- The per-segment loop of `decode_segmented_binary`: every early
`return None` of the source is `none` here.  `from_str_radix` fails on an
empty bit string (`bits = 0`) and on overflow (≥ 2^32); a value outside
`(0, 128)` also aborts. -/
def segLoop (zero_char one_char bits : Nat) : List (List Nat) → Option (List Nat)
  | [] => some []
  | seg :: rest =>
    let binary := pairBits zero_char one_char seg
    if binary.length ≠ bits then none
    else if binary = [] then none
    else
      let v := bitsToNat binary
      if v < 4294967296 then
        if 0 < v ∧ v < 128 then
          (segLoop zero_char one_char bits rest).map (fun tl => v :: tl)
        else none
      else none

/-- `decode_segmented_binary` from engine.rs. -/
def decode_segmented_binary (segments : List (List Nat))
    (zero_char one_char bits : Nat) : Option DecodeResult :=
  match segLoop zero_char one_char bits segments with
  | none => none
  | some res => mkResult "SegmentedBinary" res

-- ============================================================
-- engine.rs: encoders
-- ============================================================

/-- The big-endian `bits`-wide rendering loop shared by the binary
encoders: `for i in (0..bits).rev() { if (val >> i) & 1 == 1 .. }`. -/
def bitSymbols (zero_char one_char bits ch : Nat) : List Nat :=
  (List.range bits).reverse.map (fun i =>
    if (ch >>> i) % 2 = 1 then one_char else zero_char)

/-- `encode_binary` from engine.rs (no cover parameter in the engine). -/
def encode_binary (message : List Nat) (zero_char one_char bits : Nat) : List Nat :=
  message.flatMap (bitSymbols zero_char one_char bits)

/-- UTF-8 byte width of one code point. -/
def utf8Len (cp : Nat) : Nat :=
  if cp < 0x80 then 1 else if cp < 0x800 then 2 else if cp < 0x10000 then 3 else 4

/-- Rust `str::len()`: the UTF-8 byte length. -/
def utf8ByteLen (l : List Nat) : Nat := (l.map utf8Len).sum

/-- The cover-splicing block shared by the engine encoders: first
`chars().count() / 2` cover characters, the payload, then the rest. -/
def insertAtMid (cover payload : List Nat) : List Nat :=
  cover.take (cover.length / 2) ++ payload ++ cover.drop (cover.length / 2)

/-- `encode_steganographr` from engine.rs: 8 bits per character
(ZWSP=0, ZWNJ=1) followed by a WJ separator; cover spliced when the
cover's byte length (`cover.len()`) exceeds 1. -/
def encode_steganographr (message cover : List Nat) : List Nat :=
  let encoded := message.flatMap (fun ch => bitSymbols 0x200B 0x200C 8 ch ++ [0x2060])
  if 1 < utf8ByteLen cover then insertAtMid cover encoded else encoded

/-- `encode_tags` from engine.rs: code points < 128 shifted into the tag
range (`from_u32` always succeeds there); others dropped. -/
def encode_tags (message cover : List Nat) : List Nat :=
  let encoded := message.filterMap (fun ch =>
    if ch < 128 then some (UNICODE_TAGS_START + ch) else none)
  if 1 < utf8ByteLen cover then insertAtMid cover encoded else encoded

/-- The digit list built by `encode_330k` for one character: `cpu` times
`val % base` (little-endian), then reversed.  Indexing `charset[d]` is
safe since `d < base`; modelled with `getD`. -/
def digitsLE (base : Nat) : Nat → Nat → List Nat
  | 0, _ => []
  | k + 1, val => val % base :: digitsLE base k (val / base)

/-- `encode_330k` from engine.rs. -/
def encode_330k (message cover charset : List Nat) : List Nat :=
  let base := charset.length
  let cpu := charsPerUnicode base
  let encoded := message.flatMap (fun ch =>
    ((digitsLE base cpu ch).reverse).map (fun d => charset.getD d 0))
  if 1 < utf8ByteLen cover then insertAtMid cover encoded else encoded

/-- The `"binary"` arm of `exec_encode` in mcp/tools.rs: the engine
payload with ZWSP/ZWNJ and 8 bits, spliced into the cover at the
character midpoint whenever the cover is non-empty. -/
def exec_encode_binary (message cover : List Nat) : List Nat :=
  let zw := encode_binary message 0x200B 0x200C 8
  if cover ≠ [] then insertAtMid cover zw else zw

-- ============================================================
-- engine.rs: auto-decode orchestrator
-- ============================================================

structure Preset where
  name : String
  chars : List Nat
  description : String

/-- `encoding_presets` from engine.rs (display strings elided). -/
def encoding_presets : List (String × Preset) :=
  [("330k_default", { name := "330k", chars := [0x200C, 0x200D, 0x202C, 0xFEFF], description := "" }),
   ("steganographr", { name := "Steganographr", chars := [0x2060, 0x200B, 0x200C], description := "" }),
   ("stegcloak", { name := "StegCloak", chars := [0x200B, 0x200C, 0x200D, 0xFEFF], description := "" }),
   ("zwsp_binary", { name := "ZWSP Binary", chars := [0x200B, 0x200C], description := "" }),
   ("common_3char", { name := "Common3", chars := [0x200B, 0x200C, 0x200D], description := "" }),
   ("irongeek_zw", { name := "Irongeek", chars := [0x200B, 0x200C, 0x200D, 0xFEFF], description := "" })]

/-- Stable insertion (descending by count) modelling the stable
`sort_by(|a, b| b.1.cmp(&a.1))` on the frequency list. -/
def insertCountDesc (x : Nat × Nat) : List (Nat × Nat) → List (Nat × Nat)
  | [] => [x]
  | y :: ys => if y.2 ≤ x.2 then x :: y :: ys else y :: insertCountDesc x ys

def sortCountDesc (l : List (Nat × Nat)) : List (Nat × Nat) := l.foldr insertCountDesc []

/-- Stable insertion (descending by score) modelling the stable
`sort_by` on `score.partial_cmp` (scores are never NaN). -/
def insertScoreDesc (x : DecodeResult) : List DecodeResult → List DecodeResult
  | [] => [x]
  | y :: ys => if y.score ≤ x.score then x :: y :: ys else y :: insertScoreDesc x ys

def sortScoreDesc (l : List DecodeResult) : List DecodeResult := l.foldr insertScoreDesc []

/-- Fuel-driven loop of the `HashSet`-based `retain`; with
`fuel ≥ l.length` it never runs out of fuel. -/
def dedupGo : Nat → List DecodeResult → List DecodeResult
  | _, [] => []
  | 0, _ :: _ => []
  | fuel + 1, r :: rs =>
    r :: dedupGo fuel (rs.filter (fun x => x.decoded ≠ r.decoded))

/-- The `HashSet`-based `retain`: keep the first result for each distinct
decoded text. -/
def dedupByDecoded (l : List DecodeResult) : List DecodeResult :=
  dedupGo l.length l

/-- The alphabet sizes swept by phase 5 of `auto_decode`
(`for n in 3..top_chars.len().min(9)`, an exclusive range). -/
def narySweepSizes (distinctCount : Nat) : List Nat :=
  List.range' 3 (min distinctCount 9 - 3)

def optToList : Option DecodeResult → List DecodeResult
  | some r => [r]
  | none => []

/-- Phase 3 of `auto_decode`: each preset whose charset meets the text's
distribution in at least 2 symbols is tried with its full charset. -/
def autoPhasePresets (zw_all : List Nat) (distKeys : List Nat) : List DecodeResult :=
  encoding_presets.flatMap (fun p =>
    let preset_in_text := p.2.chars.filter (fun c => distKeys.contains c)
    if 2 ≤ preset_in_text.length then decode_nary zw_all p.2.chars else [])

/-- Phase 4 of `auto_decode`: brute-force direct binary over ordered
pairs of the top `min(len, 6)` symbols and bit widths 8, 7, keeping
scores above 15.  With `bits ∈ {8, 7}` the panic case of
`decode_direct_binary` (outer `none`) is unreachable. -/
def autoPhaseBinary (zw_all top_chars : List Nat) : List DecodeResult :=
  if 2 ≤ top_chars.length then
    let limit := min top_chars.length 6
    (List.range limit).flatMap (fun i =>
      (List.range limit).flatMap (fun j =>
        if i = j then []
        else
          [8, 7].flatMap (fun bits =>
            match decode_direct_binary zw_all (top_chars.getD i 0) (top_chars.getD j 0) bits with
            | some (some r) => if 15 < r.score then [r] else []
            | _ => [])))
  else []

/-- Phase 5 of `auto_decode`: N-ary over the top-`n` observed symbols for
each swept alphabet size. -/
def autoPhaseNary (zw_all top_chars : List Nat) : List DecodeResult :=
  if 3 ≤ top_chars.length then
    (narySweepSizes top_chars.length).flatMap (fun n =>
      decode_nary zw_all (top_chars.take n))
  else []

/-- Phase 6 of `auto_decode`: segmented binary over ordered pairs of the
top `min(len, 4)` symbols and bit widths 8, 7, keeping scores above 15. -/
def autoPhaseSegmented (segments : List (List Nat)) (top_chars : List Nat) :
    List DecodeResult :=
  if segments ≠ [] ∧ 2 ≤ top_chars.length then
    let limit := min top_chars.length 4
    (List.range limit).flatMap (fun i =>
      (List.range limit).flatMap (fun j =>
        if i = j then []
        else
          [8, 7].flatMap (fun bits =>
            match decode_segmented_binary segments (top_chars.getD i 0) (top_chars.getD j 0) bits with
            | some r => if 15 < r.score then [r] else []
            | none => [])))
  else []

/-- `auto_decode` from engine.rs. -/
def auto_decode (t : List Nat) : List DecodeResult :=
  let analysis := analyze t
  if analysis.zero_width_count = 0 then []
  else
    let zw_all := extract_all t
    let segments := extract_segments t
    -- unique zero-width chars ordered by descending count; `from_u32`
    -- modelled by the scalar filter (zero-width code points are scalars)
    let top_chars := ((sortCountDesc analysis.distribution).map Prod.fst).filter isScalar
    let results :=
      optToList (decode_unicode_tags t) ++
      optToList (decode_steganographr t) ++
      autoPhasePresets zw_all (analysis.distribution.map Prod.fst) ++
      autoPhaseBinary zw_all top_chars ++
      autoPhaseNary zw_all top_chars ++
      autoPhaseSegmented segments top_chars
    sortScoreDesc (dedupByDecoded results)

-- ============================================================
-- Theorems
-- ============================================================

/-- C7: for every input, `analyze` reports `zero_width_count` equal to the
sum of the distribution's values and `unique_zw_chars` equal to the number
of its entries; on empty input all numeric fields are zero and the
distribution is empty. -/
theorem analyze_invariants (t : List Nat) :
    (analyze t).zero_width_count = ((analyze t).distribution.map Prod.snd).sum ∧
    (analyze t).unique_zw_chars = (analyze t).distribution.length ∧
    (analyze []).total_chars = 0 ∧ (analyze []).visible_chars = 0 ∧
    (analyze []).zero_width_count = 0 ∧ (analyze []).unique_zw_chars = 0 ∧
    (analyze []).distribution = [] :=
  ⟨rfl, rfl, rfl, rfl, rfl, rfl, rfl⟩

/-- C6: `is_zero_width` holds exactly on the fixed catalog plus the
Unicode-Tag range, and is false on every ASCII letter and digit. -/
theorem is_zero_width_iff_catalog (cp : Nat) :
    (is_zero_width cp = true ↔ cp ∈ all_zero_width_chars ∨ is_unicode_tag cp = true) ∧
    (isAsciiAlnum cp = true → is_zero_width cp = false) := by
  have hiff : is_zero_width cp = true ↔
      cp ∈ all_zero_width_chars ∨ is_unicode_tag cp = true := by
    simp only [is_zero_width, is_unicode_tag, all_zero_width_chars,
      UNICODE_TAGS_START, UNICODE_TAGS_END, Bool.or_eq_true, Bool.and_eq_true,
      decide_eq_true_eq, beq_iff_eq, List.mem_cons, List.not_mem_nil, or_false]
    omega
  refine ⟨hiff, fun h => ?_⟩
  rw [Bool.eq_false_iff]
  intro hzw
  simp only [isAsciiAlnum, Bool.or_eq_true, Bool.and_eq_true, decide_eq_true_eq] at h
  rcases hiff.mp hzw with hmem | htag
  · simp only [all_zero_width_chars, List.mem_cons, List.not_mem_nil, or_false] at hmem
    omega
  · simp only [is_unicode_tag, UNICODE_TAGS_START, UNICODE_TAGS_END,
      Bool.and_eq_true, decide_eq_true_eq] at htag
    omega

/-- C6 witness: the letter `A` is alphanumeric and not zero-width. -/
theorem is_zero_width_iff_catalog_witness :
    isAsciiAlnum 65 = true ∧ is_zero_width 65 = false :=
  ⟨by decide, (is_zero_width_iff_catalog 65).2 (by decide)⟩

/-- C2 (code evaluation at the failing input): `for n in
3..top_chars.len().min(9)` is an exclusive range, so with exactly three
distinct zero-width symbols the phase-5 N-ary sweep of `auto_decode`
performs no iterations at all, and no input ever sweeps alphabet size 9. -/
theorem narySweep_misses_upper_bound :
    (analyze [0x200B, 0x200C, 0x200D]).unique_zw_chars = 3 ∧
    narySweepSizes 3 = [] ∧
    autoPhaseNary (extract_all [0x200B, 0x200C, 0x200D]) [0x200B, 0x200C, 0x200D] = [] ∧
    narySweepSizes 9 = [3, 4, 5, 6, 7, 8] ∧
    narySweepSizes 20 = [3, 4, 5, 6, 7, 8] := by
  decide

/-- C5: a text containing no zero-width characters auto-decodes to the
empty list. -/
theorem auto_decode_no_zero_width (t : List Nat)
    (h : ∀ c ∈ t, is_zero_width c = false) : auto_decode t = [] := by
  have hz : t.filter is_zero_width = [] := by
    rw [List.filter_eq_nil_iff]
    intro c hc
    simp [h c hc]
  unfold auto_decode analyze distributionOf
  simp [hz, sortAsc]

/-- C5 witness: plain ASCII text auto-decodes to nothing. -/
theorem auto_decode_no_zero_width_witness :
    (∀ c ∈ [72, 105], is_zero_width c = false) ∧ auto_decode [72, 105] = [] :=
  ⟨by decide, auto_decode_no_zero_width [72, 105] (by decide)⟩

/-- With distinct symbols, the extracted bit stream of a segment has one
bit per occurrence of either symbol. -/
theorem pairBits_length_eq_counts (z o : Nat) (hzo : z ≠ o) (seg : List Nat) :
    (pairBits z o seg).length = seg.count z + seg.count o := by
  induction seg with
  | nil => simp [pairBits]
  | cons c cs ih =>
    simp only [pairBits, List.filterMap_cons] at ih ⊢
    rw [List.count_cons, List.count_cons]
    by_cases hz : c = z
    · have e1 : (c == z) = true := beq_iff_eq.mpr hz
      have e2 : (c == o) = false :=
        beq_eq_false_iff_ne.mpr (fun he => hzo (by omega))
      simp [if_pos hz, ih, e1, e2]
      omega
    · by_cases ho : c = o
      · have e1 : (c == z) = false := beq_eq_false_iff_ne.mpr hz
        have e2 : (c == o) = true := beq_iff_eq.mpr ho
        simp [if_neg hz, if_pos ho, ih, e1, e2]
        omega
      · have e1 : (c == z) = false := beq_eq_false_iff_ne.mpr hz
        have e2 : (c == o) = false := beq_eq_false_iff_ne.mpr ho
        simp [if_neg hz, if_neg ho, ih, e1, e2]

/-- If the segment loop succeeds, every segment's extracted bit stream
has exactly `bits` bits. -/
theorem segLoop_some_length {z o bits : Nat} :
    ∀ {segs : List (List Nat)} {res : List Nat},
      segLoop z o bits segs = some res →
      ∀ seg ∈ segs, (pairBits z o seg).length = bits := by
  intro segs
  induction segs with
  | nil => simp
  | cons s ss ih =>
    intro res h seg hseg
    simp only [segLoop] at h
    by_cases hlen : (pairBits z o s).length = bits
    · rcases List.mem_cons.mp hseg with rfl | hmem
      · exact hlen
      · rw [if_neg (by simp [hlen])] at h
        split at h
        · simp at h
        · split at h
          · split at h
            · rcases Option.map_eq_some'.mp h with ⟨tl, htl, _⟩
              exact ih htl seg hmem
            · simp at h
          · simp at h
    · rw [if_pos (by simpa using hlen)] at h
      simp at h

/-- C1 (amended): `decode_segmented_binary` returns a result only if every
segment contains exactly `bits` occurrences of the two symbols; a count
mismatch aborts the decode, while foreign symbols are silently filtered
out rather than aborting. -/
theorem decode_segmented_requires_exact_counts
    (segments : List (List Nat)) (z o bits : Nat) (hzo : z ≠ o)
    (h : (decode_segmented_binary segments z o bits).isSome = true) :
    ∀ seg ∈ segments, seg.count z + seg.count o = bits := by
  intro seg hseg
  unfold decode_segmented_binary at h
  rcases hsl : segLoop z o bits segments with _ | res
  · rw [hsl] at h
    simp at h
  · have := segLoop_some_length hsl seg hseg
    rw [pairBits_length_eq_counts z o hzo seg] at this
    exact this

/-- C1 (counterexample to the claim as stated): a segment holding eight
occurrences of the two symbols plus a foreign symbol (`x` = 120) decodes
successfully instead of aborting. -/
theorem decode_segmented_accepts_foreign_symbol :
    (decode_segmented_binary
        [[0x200B, 0x200C, 0x200B, 0x200B, 0x200C, 0x200B, 0x200B, 0x200B, 120]]
        0x200B 0x200C 8).isSome = true ∧
    (120 : Nat) ∈ [0x200B, 0x200C, 0x200B, 0x200B, 0x200C, 0x200B, 0x200B, 0x200B, 120] ∧
    (120 : Nat) ≠ 0x200B ∧ (120 : Nat) ≠ 0x200C := by
  decide

/-- C1 witness: a clean 8-bit segment decodes and its symbol counts add
to 8. -/
theorem decode_segmented_requires_exact_counts_witness :
    (decode_segmented_binary [[0x200B, 0x200C, 0x200B, 0x200B, 0x200C, 0x200B, 0x200B, 0x200B]]
        0x200B 0x200C 8).isSome = true ∧
    ∀ seg ∈ [[0x200B, 0x200C, 0x200B, 0x200B, 0x200C, 0x200B, 0x200B, 0x200B]],
      seg.count 0x200B + seg.count 0x200C = 8 :=
  ⟨by decide,
   decode_segmented_requires_exact_counts _ 0x200B 0x200C 8 (by decide) (by decide)⟩

/-- Tag-encoding then tag-extracting an in-range message is the
identity on the payload level. -/
theorem tagStep_roundtrip (msg : List Nat) (h : ∀ c ∈ msg, 1 ≤ c ∧ c < 128) :
    (msg.filterMap (fun ch =>
      if ch < 128 then some (UNICODE_TAGS_START + ch) else none)).flatMap tagStep = msg := by
  induction msg with
  | nil => simp
  | cons c cs ih =>
    have hc := h c (List.mem_cons_self ..)
    have hcs : ∀ x ∈ cs, 1 ≤ x ∧ x < 128 := fun x hx => h x (List.mem_cons_of_mem _ hx)
    simp only [List.filterMap_cons, if_pos hc.2, List.flatMap_cons, ih hcs]
    have hts : tagStep (UNICODE_TAGS_START + c) = [c] := by
      unfold tagStep UNICODE_TAGS_START UNICODE_TAGS_END
      rw [if_pos (by omega)]
      simp only [Nat.add_sub_cancel_left]
      rw [if_pos (by omega)]
    rw [hts]
    rfl

/-- C4 (amended): the Unicode-Tags round trip recovers any message of
code points 1–127 that passes the printability gate. -/
theorem decode_tags_roundtrip (msg : List Nat)
    (hrange : ∀ c ∈ msg, 1 ≤ c ∧ c < 128) (hprint : is_printable msg = true) :
    ∃ r, decode_unicode_tags (encode_tags msg []) = some r ∧ r.decoded = msg := by
  have hne : msg ≠ [] := by
    intro he
    rw [he] at hprint
    simp [is_printable] at hprint
  have henc : encode_tags msg [] = msg.filterMap (fun ch =>
      if ch < 128 then some (UNICODE_TAGS_START + ch) else none) := by
    unfold encode_tags utf8ByteLen
    simp
  unfold decode_unicode_tags
  rw [henc, tagStep_roundtrip msg hrange]
  simp only [mkResult]
  rw [if_neg (by simp [hne, hprint])]
  exact ⟨_, rfl, rfl⟩

/-- C4 (counterexample to the claim as stated): the control character 1
is in the claimed range 1–127, but its round trip is rejected by the
printability gate and yields no result at all. -/
theorem decode_tags_roundtrip_fails_on_control :
    decode_unicode_tags (encode_tags [1] []) = none ∧ (1 : Nat) ≤ 1 ∧ (1 : Nat) < 128 := by
  decide

/-- C4 witness: the round trip recovers the printable message "Hi". -/
theorem decode_tags_roundtrip_witness :
    (∀ c ∈ [72, 105], 1 ≤ c ∧ c < 128) ∧ is_printable [72, 105] = true ∧
    ∃ r, decode_unicode_tags (encode_tags [72, 105] []) = some r ∧ r.decoded = [72, 105] :=
  ⟨by decide, by decide, decode_tags_roundtrip [72, 105] (by decide) (by decide)⟩

/-- Accumulating the big-endian bits of `c` into `a`. -/
theorem foldl_bitsOf (n c : Nat) :
    ∀ a, (bitsOf n c).foldl (fun acc b => 2 * acc + b) a = a * 2 ^ n + c % 2 ^ n := by
  induction n with
  | zero => simp [bitsOf, Nat.mod_one]
  | succ n ih =>
    intro a
    have hsplit : bitsOf (n + 1) c = ((c >>> n) % 2) :: bitsOf n c := by
      unfold bitsOf
      rw [List.range_succ, List.reverse_append]
      simp
    rw [hsplit, List.foldl_cons, ih]
    rw [Nat.shiftRight_eq_div_pow]
    have hm : c % 2 ^ (n + 1) = c % 2 ^ n + 2 ^ n * (c / 2 ^ n % 2) := by
      rw [pow_succ, Nat.mod_mul]
    rw [hm]
    ring

theorem bitsToNat_bitsOf (n c : Nat) : bitsToNat (bitsOf n c) = c % 2 ^ n := by
  unfold bitsToNat
  rw [foldl_bitsOf]
  simp

theorem pairBits_append (z o : Nat) (l1 l2 : List Nat) :
    pairBits z o (l1 ++ l2) = pairBits z o l1 ++ pairBits z o l2 := by
  simp [pairBits, List.filterMap_append]

/-- Filtering the emitted symbols of one character back to bits recovers
exactly its bit list. -/
theorem pairBits_bitSymbols (z o : Nat) (h : z ≠ o) (bits ch : Nat) :
    pairBits z o (bitSymbols z o bits ch) = bitsOf bits ch := by
  unfold bitSymbols bitsOf pairBits
  generalize (List.range bits).reverse = l
  induction l with
  | nil => simp
  | cons i is ih =>
    simp only [List.map_cons, List.filterMap_cons]
    by_cases hb : (ch >>> i) % 2 = 1
    · rw [if_pos hb, if_neg (Ne.symm h), if_pos rfl, ih, hb]
    · rw [if_neg hb, if_pos rfl, ih]
      have h0 : (ch >>> i) % 2 = 0 := by omega
      rw [h0]

theorem pairBits_encode_binary (z o : Nat) (h : z ≠ o) (msg : List Nat) (bits : Nat) :
    pairBits z o (encode_binary msg z o bits) = msg.flatMap (bitsOf bits) := by
  induction msg with
  | nil => simp [encode_binary, pairBits]
  | cons c cs ih =>
    unfold encode_binary at ih ⊢
    simp only [List.flatMap_cons]
    rw [pairBits_append, pairBits_bitSymbols z o h, ih]

/-- Two chunking runs with enough fuel agree. -/
theorem chunksGo_fuel_eq (n : Nat) (hn : 0 < n) :
    ∀ fuel fuel2 (l : List Nat), l.length ≤ fuel → l.length ≤ fuel2 →
      chunksGo n fuel l = chunksGo n fuel2 l := by
  intro fuel
  induction fuel with
  | zero =>
    intro fuel2 l hl _
    have : l = [] := List.length_eq_zero.mp (Nat.le_zero.mp hl)
    subst this
    cases fuel2 <;> rfl
  | succ f ih =>
    intro fuel2 l hl hl2
    cases l with
    | nil => cases fuel2 <;> rfl
    | cons a as =>
      cases fuel2 with
      | zero => simp at hl2
      | succ f2 =>
        simp only [chunksGo]
        have hd : ((a :: as).drop n).length ≤ f := by
          simp only [List.length_drop, List.length_cons] at *
          omega
        have hd2 : ((a :: as).drop n).length ≤ f2 := by
          simp only [List.length_drop, List.length_cons] at *
          omega
        rw [ih f2 _ hd hd2]

/-- Chunking after a full-size block peels it off. -/
theorem chunksOf_append (n : Nat) (hn : 0 < n) (c l : List Nat) (hc : c.length = n) :
    chunksOf n (c ++ l) = c :: chunksOf n l := by
  cases c with
  | nil => simp at hc; omega
  | cons a cs =>
    unfold chunksOf
    have hlen : ((a :: cs) ++ l).length = (cs ++ l).length + 1 := by simp
    rw [hlen]
    show chunksGo n ((cs ++ l).length + 1) (a :: (cs ++ l)) = _
    simp only [chunksGo]
    rw [← List.cons_append]
    rw [List.take_left' hc, List.drop_left' hc]
    congr 1
    exact chunksGo_fuel_eq n hn _ _ l (by simp) le_rfl

/-- Chunking a concatenation of same-width blocks recovers the blocks. -/
theorem chunksOf_flatMap (n : Nat) (hn : 0 < n) (msg : List Nat) (f : Nat → List Nat)
    (hf : ∀ c ∈ msg, (f c).length = n) :
    chunksOf n (msg.flatMap f) = msg.map f := by
  induction msg with
  | nil => simp [chunksOf, chunksGo]
  | cons c cs ih =>
    simp only [List.flatMap_cons, List.map_cons]
    rw [chunksOf_append n hn _ _ (hf c (List.mem_cons_self ..)),
      ih (fun x hx => hf x (List.mem_cons_of_mem _ hx))]

/-- C3 (amended): the direct-binary round trip at 8 bits recovers any
message of code points in (0, 128) that passes the printability gate,
for any distinct symbol pair. -/
theorem decode_binary_roundtrip (msg : List Nat) (z o : Nat) (hzo : z ≠ o)
    (hrange : ∀ c ∈ msg, 0 < c ∧ c < 128) (hprint : is_printable msg = true) :
    ∃ r, decode_direct_binary (encode_binary msg z o 8) z o 8 = some (some r) ∧
      r.decoded = msg := by
  have hne : msg ≠ [] := by
    intro he
    rw [he] at hprint
    simp [is_printable] at hprint
  have hlen8 : ∀ ms : List Nat, (ms.flatMap (bitsOf 8)).length = 8 * ms.length := by
    intro ms
    induction ms with
    | nil => simp
    | cons a as iha =>
      simp only [List.flatMap_cons, List.length_append, List.length_cons, iha, bitsOf]
      simp
      omega
  unfold decode_direct_binary
  rw [pairBits_encode_binary z o hzo msg 8]
  have hnotlt : ¬((msg.flatMap (bitsOf 8)).length < 8) := by
    rw [hlen8]
    have : 1 ≤ msg.length := by
      cases msg with
      | nil => exact absurd rfl hne
      | cons a as => simp
    omega
  rw [if_neg hnotlt]
  have hchunks : chunksRs 8 (msg.flatMap (bitsOf 8)) =
      some (msg.map (bitsOf 8)) := by
    unfold chunksRs
    rw [if_neg (by omega)]
    rw [chunksOf_flatMap 8 (by omega) msg (bitsOf 8) (fun c _ => by simp [bitsOf])]
  rw [hchunks]
  dsimp only
  have hres : ∀ ms : List Nat, (∀ c ∈ ms, 0 < c ∧ c < 128) →
      (ms.map (bitsOf 8)).flatMap (fun chunk =>
        if chunk.length < 8 then []
        else
          if bitsToNat chunk < 4294967296 then
            (if 0 < bitsToNat chunk ∧ bitsToNat chunk < 128 then [bitsToNat chunk] else [])
          else []) = ms := by
    intro ms hms
    induction ms with
    | nil => simp
    | cons a as iha =>
      have ha := hms a (List.mem_cons_self ..)
      have has : ∀ c ∈ as, 0 < c ∧ c < 128 := fun c hc => hms c (List.mem_cons_of_mem _ hc)
      simp only [List.map_cons, List.flatMap_cons, iha has]
      have hv : bitsToNat (bitsOf 8 a) = a := by
        rw [bitsToNat_bitsOf]
        exact Nat.mod_eq_of_lt (by omega)
      rw [if_neg (by simp [bitsOf]), hv, if_pos (by omega), if_pos (by omega)]
      rfl
  rw [hres msg hrange]
  simp only [mkResult]
  rw [if_neg (by simp [hne, hprint])]
  exact ⟨_, rfl, rfl⟩

/-- C3 (counterexample to the claim as stated): the control character 1
has code point < 128, but its round trip is rejected by the printability
gate and yields no decode result. -/
theorem decode_binary_roundtrip_fails_on_control :
    decode_direct_binary (encode_binary [1] 0x200B 0x200C 8) 0x200B 0x200C 8 =
      some none ∧ (1 : Nat) < 128 ∧ (0x200B : Nat) ≠ 0x200C := by
  decide

/-- C3 witness: the round trip recovers "Hi" for the ZWSP/ZWNJ pair. -/
theorem decode_binary_roundtrip_witness :
    (0x200B : Nat) ≠ 0x200C ∧ (∀ c ∈ [72, 105], 0 < c ∧ c < 128) ∧
    is_printable [72, 105] = true ∧
    ∃ r, decode_direct_binary (encode_binary [72, 105] 0x200B 0x200C 8) 0x200B 0x200C 8 =
        some (some r) ∧ r.decoded = [72, 105] :=
  ⟨by decide, by decide, by decide,
   decode_binary_roundtrip [72, 105] 0x200B 0x200C (by decide) (by decide) (by decide)⟩

/-- The saturating fold of N-ary accumulation never leaves the u32
range, whatever the base, digits, and starting value. -/
theorem naryFold_saturates (l : List Nat) :
    ∀ (acc base : Nat), acc ≤ u32Max →
      l.foldl (fun v d => satAdd (satMul v (base % 4294967296)) (d % 4294967296)) acc ≤
        u32Max := by
  induction l with
  | nil =>
    intro acc base h
    simpa using h
  | cons d ds ih =>
    intro acc base h
    simp only [List.foldl_cons]
    exact ih _ base (Nat.min_le_right _ _)

/-- C8 (amended): every decode strategy returns normally for every input
— except `decode_direct_binary` at the undocumented width `bits = 0`,
whose chunking step faults; absence of a usable result is the `none` /
empty-list value, and N-ary accumulation saturates at `u32::MAX` instead
of overflowing. -/
theorem decode_strategies_total :
    (∀ zw_seq z o bits, 0 < bits → (decode_direct_binary zw_seq z o bits).isSome = true) ∧
    decode_unicode_tags [] = none ∧
    decode_steganographr [] = none ∧
    (∀ z o bits, 0 < bits → decode_direct_binary [] z o bits = some none) ∧
    (∀ charset, decode_nary [] charset = []) ∧
    (∀ z o bits, decode_segmented_binary [] z o bits = none) ∧
    (∀ base chunk, naryChunkVal base chunk ≤ u32Max) := by
  refine ⟨?_, by decide, by decide, ?_, ?_, ?_, ?_⟩
  · intro zw z o bits hb
    unfold decode_direct_binary
    dsimp only
    split
    · rfl
    · unfold chunksRs
      rw [if_neg (by omega)]
      rfl
  · intro z o bits hb
    unfold decode_direct_binary
    have hp : pairBits z o [] = [] := rfl
    rw [hp]
    rw [if_pos (by simpa using hb)]
  · intro cs
    unfold decode_nary
    dsimp only
    split
    · rfl
    · simp
  · intro z o bits
    rfl
  · intro base chunk
    exact naryFold_saturates chunk 0 base (by simp [u32Max])

/-- C8 (counterexample to the claim as stated): at `bits = 0` the direct
binary strategy reaches `slice::chunks(0)`, which panics — modelled as
the outer `none` — rather than returning an absent result. -/
theorem decode_direct_binary_faults_at_zero_bits :
    decode_direct_binary [] 0 1 0 = none := by decide

/-- C8 witness: a documented bit width returns normally. -/
theorem decode_strategies_total_witness :
    0 < 8 ∧ (decode_direct_binary [0x200B] 0x200B 0x200C 8).isSome = true :=
  ⟨by decide, decode_strategies_total.1 [0x200B] 0x200B 0x200C 8 (by decide)⟩

/-- C9 (amended): the three engine encoders splice the payload at the
cover's character-count midpoint exactly when the cover's UTF-8 *byte*
length (`cover.len()`) exceeds 1, returning the payload alone otherwise;
the Binary encoder's cover handling lives in the tool layer and splices
for every non-empty cover, single-character covers included. -/
theorem encoders_cover_splice :
    (∀ msg cover : List Nat,
      (1 < utf8ByteLen cover →
        encode_steganographr msg cover = insertAtMid cover (encode_steganographr msg [])) ∧
      (utf8ByteLen cover ≤ 1 → encode_steganographr msg cover = encode_steganographr msg [])) ∧
    (∀ msg cover : List Nat,
      (1 < utf8ByteLen cover →
        encode_tags msg cover = insertAtMid cover (encode_tags msg [])) ∧
      (utf8ByteLen cover ≤ 1 → encode_tags msg cover = encode_tags msg [])) ∧
    (∀ msg cover charset : List Nat,
      (1 < utf8ByteLen cover →
        encode_330k msg cover charset = insertAtMid cover (encode_330k msg [] charset)) ∧
      (utf8ByteLen cover ≤ 1 → encode_330k msg cover charset = encode_330k msg [] charset)) ∧
    (∀ msg cover : List Nat,
      (cover ≠ [] →
        exec_encode_binary msg cover = insertAtMid cover (encode_binary msg 0x200B 0x200C 8)) ∧
      (cover = [] → exec_encode_binary msg cover = encode_binary msg 0x200B 0x200C 8)) := by
  refine ⟨fun msg cover => ⟨fun h => ?_, fun h => ?_⟩,
    fun msg cover => ⟨fun h => ?_, fun h => ?_⟩,
    fun msg cover charset => ⟨fun h => ?_, fun h => ?_⟩,
    fun msg cover => ⟨fun h => ?_, fun h => ?_⟩⟩
  · unfold encode_steganographr
    rw [if_pos h, if_neg (by simp [utf8ByteLen])]
  · unfold encode_steganographr
    rw [if_neg (by omega), if_neg (by simp [utf8ByteLen])]
  · unfold encode_tags
    rw [if_pos h, if_neg (by simp [utf8ByteLen])]
  · unfold encode_tags
    rw [if_neg (by omega), if_neg (by simp [utf8ByteLen])]
  · unfold encode_330k
    rw [if_pos h, if_neg (by simp [utf8ByteLen])]
  · unfold encode_330k
    rw [if_neg (by omega), if_neg (by simp [utf8ByteLen])]
  · unfold exec_encode_binary
    rw [if_pos h]
  · subst h
    rfl

/-- C9 (counterexample to the claim as stated): a cover of character
length 1 must, per the claim, leave the payload alone; the tool-layer
Binary encoder splices any non-empty cover, and the engine encoders
splice a single multi-byte-character cover because the condition tests
byte length. -/
theorem encoders_cover_splice_counterexample :
    exec_encode_binary [72] [97] ≠ encode_binary [72] 0x200B 0x200C 8 ∧
    ([97] : List Nat).length = 1 ∧
    encode_tags [72] [0x597D] ≠ encode_tags [72] [] ∧
    ([0x597D] : List Nat).length = 1 := by
  decide

/-- C9 witness: a two-byte cover is spliced at the midpoint, and the
tool-layer Binary encoder splices a non-empty cover. -/
theorem encoders_cover_splice_witness :
    1 < utf8ByteLen [97, 98] ∧
    encode_steganographr [72] [97, 98] = insertAtMid [97, 98] (encode_steganographr [72] []) ∧
    ([97] : List Nat) ≠ [] ∧
    exec_encode_binary [72] [97] = insertAtMid [97] (encode_binary [72] 0x200B 0x200C 8) :=
  ⟨by decide, (encoders_cover_splice.1 [72] [97, 98]).1 (by decide), by decide,
   (encoders_cover_splice.2.2.2 [72] [97]).1 (by decide)⟩

/-- Whatever `mkResult` accepts is non-empty and printable. -/
theorem mkResult_good {m : String} {res : List Nat} {r : DecodeResult}
    (h : mkResult m res = some r) :
    r.decoded ≠ [] ∧ is_printable r.decoded = true := by
  unfold mkResult at h
  split at h
  · exact absurd h (by simp)
  · rename_i hcond
    rw [Option.some.injEq] at h
    subst h
    simp only [Bool.or_eq_true, Bool.not_eq_true', decide_eq_true_eq, not_or] at hcond
    exact ⟨hcond.1, by simpa using hcond.2⟩

theorem decode_unicode_tags_good {t : List Nat} {r : DecodeResult}
    (h : decode_unicode_tags t = some r) :
    r.decoded ≠ [] ∧ is_printable r.decoded = true := by
  unfold decode_unicode_tags at h
  exact mkResult_good h

theorem decode_steganographr_good {t : List Nat} {r : DecodeResult}
    (h : decode_steganographr t = some r) :
    r.decoded ≠ [] ∧ is_printable r.decoded = true := by
  unfold decode_steganographr at h
  dsimp only at h
  split at h
  · exact absurd h (by simp)
  · exact mkResult_good h

theorem decode_direct_binary_good {zw : List Nat} {z o bits : Nat} {r : DecodeResult}
    (h : decode_direct_binary zw z o bits = some (some r)) :
    r.decoded ≠ [] ∧ is_printable r.decoded = true := by
  unfold decode_direct_binary at h
  dsimp only at h
  split at h
  · simp at h
  · rcases hc : chunksRs bits (pairBits z o zw) with _ | cs
    · rw [hc] at h
      simp at h
    · rw [hc] at h
      dsimp only at h
      rw [Option.some.injEq] at h
      exact mkResult_good h

theorem decode_segmented_binary_good {segs : List (List Nat)} {z o bits : Nat}
    {r : DecodeResult} (h : decode_segmented_binary segs z o bits = some r) :
    r.decoded ≠ [] ∧ is_printable r.decoded = true := by
  unfold decode_segmented_binary at h
  split at h
  · exact absurd h (by simp)
  · exact mkResult_good h

theorem decode_nary_good {zw charset : List Nat} {r : DecodeResult}
    (h : r ∈ decode_nary zw charset) :
    r.decoded ≠ [] ∧ is_printable r.decoded = true := by
  unfold decode_nary at h
  dsimp only at h
  split at h
  · simp at h
  · split at h
    · simp at h
    · rw [List.mem_flatMap] at h
      rcases h with ⟨gs, _, hm⟩
      split at hm
      · simp at hm
      · split at hm
        · simp at hm
        · rename_i text _
          split at hm
          · rename_i hcond
            rw [List.mem_singleton] at hm
            subst hm
            exact ⟨hcond.1, hcond.2.1⟩
          · simp at hm

theorem dedupGo_subset :
    ∀ (fuel : Nat) (l : List DecodeResult) (r : DecodeResult), r ∈ dedupGo fuel l → r ∈ l := by
  intro fuel
  induction fuel with
  | zero =>
    intro l r h
    cases l with
    | nil => simp [dedupGo] at h
    | cons a as => simp [dedupGo] at h
  | succ f ih =>
    intro l r h
    cases l with
    | nil => simp [dedupGo] at h
    | cons a as =>
      simp only [dedupGo, List.mem_cons] at h ⊢
      rcases h with rfl | h
      · exact Or.inl rfl
      · exact Or.inr (List.mem_of_mem_filter (ih _ r h))

theorem dedupGo_pairwise :
    ∀ (fuel : Nat) (l : List DecodeResult), l.length ≤ fuel →
      (dedupGo fuel l).Pairwise (fun a b => a.decoded ≠ b.decoded) := by
  intro fuel
  induction fuel with
  | zero =>
    intro l hl
    have : l = [] := List.length_eq_zero.mp (Nat.le_zero.mp hl)
    subst this
    simp [dedupGo]
  | succ f ih =>
    intro l hl
    cases l with
    | nil => simp [dedupGo]
    | cons a as =>
      simp only [dedupGo]
      refine List.Pairwise.cons ?_ (ih _ ?_)
      · intro y hy
        have hyf := dedupGo_subset f _ y hy
        have := List.of_mem_filter hyf
        simp only [decide_eq_true_eq] at this
        exact Ne.symm this
      · calc (as.filter (fun x => x.decoded ≠ a.decoded)).length
            ≤ as.length := List.length_filter_le _ _
        _ ≤ f := by simpa using hl

theorem insertScoreDesc_perm (x : DecodeResult) (l : List DecodeResult) :
    (insertScoreDesc x l).Perm (x :: l) := by
  induction l with
  | nil => exact List.Perm.refl _
  | cons y ys ih =>
    unfold insertScoreDesc
    split
    · exact List.Perm.refl _
    · exact (List.Perm.cons y ih).trans (List.Perm.swap x y ys)

theorem sortScoreDesc_perm (l : List DecodeResult) : (sortScoreDesc l).Perm l := by
  induction l with
  | nil => exact List.Perm.refl _
  | cons x xs ih =>
    unfold sortScoreDesc at ih ⊢
    simp only [List.foldr_cons]
    exact (insertScoreDesc_perm x _).trans (List.Perm.cons x ih)

/-- Deduplicating and score-sorting preserves result validity and makes
decoded texts pairwise distinct. -/
theorem pipeline_good (R : List DecodeResult)
    (hR : ∀ r ∈ R, r.decoded ≠ [] ∧ is_printable r.decoded = true) :
    (∀ r ∈ sortScoreDesc (dedupByDecoded R),
      r.decoded ≠ [] ∧ is_printable r.decoded = true) ∧
    (sortScoreDesc (dedupByDecoded R)).Pairwise (fun a b => a.decoded ≠ b.decoded) := by
  have hperm := sortScoreDesc_perm (dedupByDecoded R)
  constructor
  · intro r hr
    exact hR r (dedupGo_subset _ _ r (hperm.mem_iff.mp hr))
  · exact (hperm.pairwise_iff (fun h => Ne.symm h)).mpr (dedupGo_pairwise _ _ le_rfl)

theorem autoPhasePresets_good {zw keys : List Nat} {r : DecodeResult}
    (h : r ∈ autoPhasePresets zw keys) :
    r.decoded ≠ [] ∧ is_printable r.decoded = true := by
  unfold autoPhasePresets at h
  rw [List.mem_flatMap] at h
  rcases h with ⟨p, _, hm⟩
  dsimp only at hm
  split at hm
  · exact decode_nary_good hm
  · simp at hm

theorem autoPhaseBinary_good {zw top : List Nat} {r : DecodeResult}
    (h : r ∈ autoPhaseBinary zw top) :
    r.decoded ≠ [] ∧ is_printable r.decoded = true := by
  unfold autoPhaseBinary at h
  split at h
  · dsimp only at h
    rw [List.mem_flatMap] at h
    rcases h with ⟨i, _, h⟩
    rw [List.mem_flatMap] at h
    rcases h with ⟨j, _, h⟩
    split at h
    · simp at h
    · rw [List.mem_flatMap] at h
      rcases h with ⟨bits, _, h⟩
      split at h
      · rename_i r' heq
        split at h
        · rw [List.mem_singleton] at h
          subst h
          exact decode_direct_binary_good heq
        · simp at h
      · simp at h
  · simp at h

theorem autoPhaseNary_good {zw top : List Nat} {r : DecodeResult}
    (h : r ∈ autoPhaseNary zw top) :
    r.decoded ≠ [] ∧ is_printable r.decoded = true := by
  unfold autoPhaseNary at h
  split at h
  · rw [List.mem_flatMap] at h
    rcases h with ⟨n, _, hm⟩
    exact decode_nary_good hm
  · simp at h

theorem autoPhaseSegmented_good {segs : List (List Nat)} {top : List Nat} {r : DecodeResult}
    (h : r ∈ autoPhaseSegmented segs top) :
    r.decoded ≠ [] ∧ is_printable r.decoded = true := by
  unfold autoPhaseSegmented at h
  split at h
  · dsimp only at h
    rw [List.mem_flatMap] at h
    rcases h with ⟨i, _, h⟩
    rw [List.mem_flatMap] at h
    rcases h with ⟨j, _, h⟩
    split at h
    · simp at h
    · rw [List.mem_flatMap] at h
      rcases h with ⟨bits, _, h⟩
      split at h
      · rename_i r' heq
        split at h
        · rw [List.mem_singleton] at h
          subst h
          exact decode_segmented_binary_good heq
        · simp at h
      · simp at h
  · simp at h

/-- C10: every result `auto_decode` returns has a non-empty decoded text
that passes the printability gate, and the decoded texts of the returned
results are pairwise distinct. -/
theorem auto_decode_results_good (t : List Nat) :
    (∀ r ∈ auto_decode t, r.decoded ≠ [] ∧ is_printable r.decoded = true) ∧
    (auto_decode t).Pairwise (fun a b => a.decoded ≠ b.decoded) := by
  unfold auto_decode
  dsimp only
  split
  · simp
  · apply pipeline_good
    intro r hr
    simp only [List.mem_append] at hr
    rcases hr with (((((h1 | h2) | h3) | h4) | h5) | h6)
    · rcases hdu : decode_unicode_tags t with _ | r'
      · rw [hdu] at h1
        simp [optToList] at h1
      · rw [hdu] at h1
        simp only [optToList, List.mem_singleton] at h1
        subst h1
        exact decode_unicode_tags_good hdu
    · rcases hds : decode_steganographr t with _ | r'
      · rw [hds] at h2
        simp [optToList] at h2
      · rw [hds] at h2
        simp only [optToList, List.mem_singleton] at h2
        subst h2
        exact decode_steganographr_good hds
    · exact autoPhasePresets_good h3
    · exact autoPhaseBinary_good h4
    · exact autoPhaseNary_good h5
    · exact autoPhaseSegmented_good h6

/-- C10 witness: the tag-hidden "Hi" produces exactly one result, and it
is non-empty and printable. -/
theorem auto_decode_results_good_witness :
    ({ method := "Unicode Tags", decoded := [72, 105], score := 60 } : DecodeResult).decoded ≠ [] ∧
    is_printable
      ({ method := "Unicode Tags", decoded := [72, 105], score := 60 } : DecodeResult).decoded = true :=
  (auto_decode_results_good [0xE0048, 0xE0069]).1
    { method := "Unicode Tags", decoded := [72, 105], score := 60 } (by decide)
